import Mathlib

set_option maxRecDepth 100000

/-!
Shallow embedding of `assemble_grading_comments.py`: a tool that scans text
files for lines bearing the grading marker, sums "obtained/possible" score
pairs per file and per directory, and emits per-directory reports plus a
top-level CSV summary.

Strings are modelled as `List Char`; Python's arbitrary-precision `int` is
modelled as `Int`.  Python's `\s` and `str.strip` whitespace classes are
modelled over the ASCII range; `\d` is modelled as the ASCII digits.
File-system reads are modelled by `FileReadResult` (the outcome of opening
and reading a file) and the directory tree by `Dir`; file writes are
modelled as returned values (an output-sink view of the side effects).
-/

/-- The literal marker token `### Grading:` from the source. -/
def GRADING_MARKER : List Char := "### Grading:".data

/-- Fixed report file name from the source. -/
def REPORT_FILE_NAME : String := "grading_report.txt"

/-- Whitespace class: models Python `\s` / `str.strip()` over ASCII. -/
def pyIsSpace (c : Char) : Bool :=
  c == ' ' || c == '\t' || c == '\n' || c == Char.ofNat 11 || c == Char.ofNat 12 || c == '\r'

/-- Models Python `str.strip()`: drop leading and trailing whitespace. -/
def trimChars (l : List Char) : List Char :=
  ((l.dropWhile pyIsSpace).reverse.dropWhile pyIsSpace).reverse

/-- Models `line_text[line_text.index(GRADING_MARKER):]`: the suffix of the
line starting at the first occurrence of the marker (`none` when the marker
does not occur, i.e. the `GRADING_MARKER in line_text` test fails). -/
def dropToMarker : List Char → Option (List Char)
  | [] => none
  | c :: cs =>
    if GRADING_MARKER.isPrefixOf (c :: cs) then some (c :: cs) else dropToMarker cs

/-- Per-line body of the extraction loop: strip the line, keep it only when
non-empty and containing the marker, and return the stripped suffix from the
marker on. -/
def extractLine (line : List Char) : Option (List Char) :=
  let t := trimChars line
  if t.isEmpty then none
  else
    match dropToMarker t with
    | some s => some (trimChars s)
    | none => none

/-- Atomic view of opening and reading a file: a complete successful read of
its lines, `FileNotFoundError` at `open`, or `OSError` at `open` (before any
line was yielded, so the accumulator is still empty).  The aggregate claims
below use this view; the finer `FileAccess` / `extract_grading_comments_run`
model additionally covers the source's mid-read `OSError` path (partial
accumulation returned) and the undecodable-content path (`UnicodeDecodeError`,
which the source catches nowhere). -/
inductive FileReadResult where
  | ok (lines : List (List Char))
  | notFound
  | ioError
deriving DecidableEq

/-- The extraction loop over the lines of a successfully opened file. -/
def extract_grading_comments (lines : List (List Char)) : List (List Char) :=
  lines.filterMap extractLine

/-- `extract_grading_comments_from_file` on the atomic view: returns the
marker lines of a fully read file; on `FileNotFoundError` or `OSError` at
`open` a diagnostic is printed and the still-empty accumulator is returned.
(The mid-read and decode-error paths are modelled by
`extract_grading_comments_run`.) -/
def extract_grading_comments_from_file : FileReadResult → List (List Char)
  | .ok lines => extract_grading_comments lines
  | .notFound => []
  | .ioError => []

/-- The one exception class of the source that escapes every handler:
`UnicodeDecodeError` (a `ValueError`), raised while iterating a file whose
bytes are not valid UTF-8.  It is caught neither by the extractor's
`except FileNotFoundError` / `except OSError` nor by the walker loop's
`except OSError`. -/
inductive PyError where
  | unicodeDecodeError
deriving DecidableEq

instance {ε α : Type} [DecidableEq ε] [DecidableEq α] :
    DecidableEq (Except ε α) := fun x y =>
  match x, y with
  | .ok a, .ok b =>
    if h : a = b then .isTrue (congrArg Except.ok h)
    else .isFalse (fun he => h (Except.ok.inj he))
  | .error e, .error f =>
    if h : e = f then .isTrue (congrArg Except.error h)
    else .isFalse (fun he => h (Except.error.inj he))
  | .ok _, .error _ => .isFalse (fun he => Except.noConfusion he)
  | .error _, .ok _ => .isFalse (fun he => Except.noConfusion he)

/-- How the `for line in file` iteration of one opened file terminates:
end of file, an `OSError` raised mid-read, or a `UnicodeDecodeError` on
undecodable bytes. -/
inductive ReadEnding where
  | eof
  | osError
  | decodeError
deriving DecidableEq

/-- Opening and iterating one file, line by line: `FileNotFoundError` at
`open`, or the successfully decoded `lines` followed by the terminal event
(`reads [] .osError` is an `OSError` at `open` itself). -/
inductive FileAccess where
  | notFound
  | reads (lines : List (List Char)) (ending : ReadEnding)
deriving DecidableEq

/-- The faithful effectful model of `extract_grading_comments_from_file`:
the `try` block accumulates comments line by line, so a mid-read `OSError`
is caught and the partially accumulated (possibly non-empty) list is
returned, while a `UnicodeDecodeError` is caught by no handler and
propagates to the caller, discarding the accumulator. -/
def extract_grading_comments_run : FileAccess → Except PyError (List (List Char))
  | .notFound => Except.ok []
  | .reads lines .eof => Except.ok (extract_grading_comments lines)
  | .reads lines .osError => Except.ok (extract_grading_comments lines)
  | .reads _ .decodeError => Except.error PyError.unicodeDecodeError

/-- On the paths the atomic view covers — a complete read, a missing file,
an `OSError` before any line was yielded — the two models agree. -/
theorem extract_run_refines_atomic (lines : List (List Char)) :
    extract_grading_comments_run (FileAccess.reads lines ReadEnding.eof) =
      Except.ok (extract_grading_comments_from_file (FileReadResult.ok lines)) ∧
    extract_grading_comments_run FileAccess.notFound =
      Except.ok (extract_grading_comments_from_file FileReadResult.notFound) ∧
    extract_grading_comments_run (FileAccess.reads [] ReadEnding.osError) =
      Except.ok (extract_grading_comments_from_file FileReadResult.ioError) :=
  ⟨rfl, rfl, rfl⟩

/-- Integer value of one ASCII digit. -/
def digitVal (c : Char) : Int := Int.ofNat (c.toNat - '0'.toNat)

/-- Value of a digit string, as Python `int` computes it on `\d+` captures. -/
def digitsVal (l : List Char) : Int := l.foldl (fun a c => a * 10 + digitVal c) 0

/-- Models `int(s)` on a captured token together with the `try`/`except
ValueError` guard: succeeds exactly on non-empty all-digit strings. -/
def pyInt (l : List Char) : Option Int :=
  if !l.isEmpty && l.all Char.isDigit then some (digitsVal l) else none

/-- One step of the regex `\s*(\d+)\s*/\s*(\d+)` right after a marker
occurrence: skip whitespace, take the greedy digit run, skip whitespace,
require `/`, skip whitespace, take the second greedy digit run.  Returns the
two captured digit strings and the remainder of the input after the match.
The character classes `\s`, `\d` and `/` are pairwise disjoint, so the
Python regex engine matches this fragment deterministically. -/
def matchScores (l : List Char) : Option ((List Char × List Char) × List Char) :=
  let l1 := l.dropWhile pyIsSpace
  let d1 := l1.takeWhile Char.isDigit
  if d1.isEmpty then none
  else
    match (l1.dropWhile Char.isDigit).dropWhile pyIsSpace with
    | '/' :: l3 =>
      let l4 := l3.dropWhile pyIsSpace
      let d2 := l4.takeWhile Char.isDigit
      if d2.isEmpty then none
      else some ((d1, d2), l4.dropWhile Char.isDigit)
    | _ => none

theorem length_dropWhile_le {α : Type} (p : α → Bool) (l : List α) :
    (l.dropWhile p).length ≤ l.length :=
  (List.dropWhile_sublist p).length_le

theorem matchScores_rest_le (l : List Char) (pr : (List Char × List Char) × List Char)
    (h : matchScores l = some pr) : pr.2.length ≤ l.length := by
  unfold matchScores at h
  simp only at h
  split at h
  · exact absurd h (by simp)
  · split at h
    · split at h
      · exact absurd h (by simp)
      · rename_i l3 heq _
        have h4 : ((l3.dropWhile pyIsSpace).dropWhile Char.isDigit).length ≤ l3.length :=
          le_trans (length_dropWhile_le _ _) (length_dropWhile_le _ _)
        have h3 : l3.length < ((l.dropWhile pyIsSpace).dropWhile Char.isDigit).length := by
          have hw := length_dropWhile_le pyIsSpace ((l.dropWhile pyIsSpace).dropWhile Char.isDigit)
          rw [heq] at hw; simp at hw; omega
        have h2 : ((l.dropWhile pyIsSpace).dropWhile Char.isDigit).length ≤ l.length :=
          le_trans (length_dropWhile_le _ _) (length_dropWhile_le _ _)
        have : pr.2 = (l3.dropWhile pyIsSpace).dropWhile Char.isDigit := by
          cases h; rfl
        rw [this]; omega
    · exact absurd h (by simp)

/-- Fuelled scan for `pattern.findall(c)`: at each marker occurrence try the
score fragment; on success record the two captures and resume after the
match, otherwise resume at the next character.  The fuel only bounds the
recursion depth; `findallAux_fuel_irrel` shows any fuel of at least the
input length computes the same (un-truncated) scan. -/
def findallAux : Nat → List Char → List (List Char × List Char)
  | 0, _ => []
  | _ + 1, [] => []
  | fuel + 1, c :: cs =>
    if GRADING_MARKER.isPrefixOf (c :: cs) then
      match matchScores ((c :: cs).drop GRADING_MARKER.length) with
      | some pr => pr.1 :: findallAux fuel pr.2
      | none => findallAux fuel cs
    else findallAux fuel cs

/-- `pattern.findall(c)`: the non-overlapping leftmost-match scan of the
regex `re.escape(GRADING_MARKER) + "\s*(\d+)\s*/\s*(\d+)"`.  (The marker has
no non-trivial self-overlap and the matched tail contains no `#`, so the
character-by-character scan coincides with the regex engine's search.) -/
def findall (l : List Char) : List (List Char × List Char) :=
  findallAux l.length l

theorem findallAux_nil (fuel : Nat) : findallAux fuel [] = [] := by
  cases fuel <;> rfl

theorem matchScores_rest_lt_cons (c : Char) (cs : List Char)
    (pr : (List Char × List Char) × List Char)
    (h : matchScores ((c :: cs).drop GRADING_MARKER.length) = some pr) :
    pr.2.length ≤ cs.length := by
  have h1 := matchScores_rest_le _ _ h
  have h2 : ((c :: cs).drop GRADING_MARKER.length).length ≤ cs.length := by
    simp [GRADING_MARKER]
  omega

/-- Any fuel of at least the input length yields the same scan: `findall`
is the total left-to-right search, not a truncation. -/
theorem findallAux_fuel_irrel (f1 : Nat) : ∀ (f2 : Nat) (l : List Char),
    l.length ≤ f1 → l.length ≤ f2 → findallAux f1 l = findallAux f2 l := by
  induction f1 with
  | zero =>
    intro f2 l h1 _
    have : l = [] := List.length_eq_zero.mp (Nat.le_zero.mp h1)
    subst this
    rw [findallAux_nil, findallAux_nil]
  | succ f ih =>
    intro f2 l h1 h2
    match l, f2 with
    | [], _ => rw [findallAux_nil, findallAux_nil]
    | c :: cs, 0 => simp at h2
    | c :: cs, g + 1 =>
      simp only [findallAux]
      have hcs : cs.length ≤ f := by simp at h1; omega
      have hcs2 : cs.length ≤ g := by simp at h2; omega
      split
      · split
        · rename_i pr h
          have hr := matchScores_rest_lt_cons c cs pr h
          rw [ih g pr.2 (by omega) (by omega)]
        · exact ih g cs hcs hcs2
      · exact ih g cs hcs hcs2

/-- Loop body over one `findall` capture pair: parse both tokens and add
them to the running totals, skipping the pair when either parse fails. -/
def addPair (acc : Int × Int) (sp : List Char × List Char) : Int × Int :=
  match pyInt sp.1, pyInt sp.2 with
  | some o, some p => (acc.1 + o, acc.2 + p)
  | _, _ => acc

/-- `compute_score_totals`: sum every parsed (obtained, possible) pair of
every comment string. -/
def compute_score_totals (grading_comments : List (List Char)) : Int × Int :=
  grading_comments.foldl (fun acc c => (findall c).foldl addPair acc) (0, 0)

/-- Parse one capture pair, `none` when either token fails to parse. -/
def parsedPair (sp : List Char × List Char) : Option (Int × Int) :=
  match pyInt sp.1, pyInt sp.2 with
  | some o, some p => some (o, p)
  | _, _ => none

/-- The parsed integer pairs contributed by one comment string: each
`findall` capture pair whose two tokens both parse. -/
def pairValues (c : List Char) : List (Int × Int) :=
  (findall c).filterMap parsedPair

theorem addPair_eq (acc : Int × Int) (sp : List Char × List Char) :
    addPair acc sp = match parsedPair sp with
      | some op => (acc.1 + op.1, acc.2 + op.2)
      | none => acc := by
  unfold addPair parsedPair
  rcases h1 : pyInt sp.1 with _ | o <;> rcases h2 : pyInt sp.2 with _ | p <;> simp

theorem foldl_addPair (l : List (List Char × List Char)) : ∀ acc : Int × Int,
    l.foldl addPair acc =
      (acc.1 + ((l.filterMap parsedPair).map Prod.fst).sum,
       acc.2 + ((l.filterMap parsedPair).map Prod.snd).sum) := by
  induction l with
  | nil => intro acc; simp
  | cons sp l ih =>
    intro acc
    rw [List.foldl_cons, ih, addPair_eq]
    rcases h : parsedPair sp with _ | op
    · simp [List.filterMap_cons, h]
    · simp [List.filterMap_cons, h]
      constructor <;> ring

theorem score_totals_foldl (comments : List (List Char)) : ∀ acc : Int × Int,
    comments.foldl (fun acc c => (findall c).foldl addPair acc) acc =
      (acc.1 + (((comments.map pairValues).flatten).map Prod.fst).sum,
       acc.2 + (((comments.map pairValues).flatten).map Prod.snd).sum) := by
  induction comments with
  | nil => intro acc; simp
  | cons c cs ih =>
    intro acc
    rw [List.foldl_cons, ih, foldl_addPair]
    simp [pairValues]
    constructor <;> ring

/-- `compute_score_totals` is the componentwise sum of all parsed pairs. -/
theorem score_totals_eq_sums (comments : List (List Char)) :
    compute_score_totals comments =
      ((((comments.map pairValues).flatten).map Prod.fst).sum,
       (((comments.map pairValues).flatten).map Prod.snd).sum) := by
  rw [compute_score_totals, score_totals_foldl]
  simp

theorem matchScores_captures (l : List Char) (pr : (List Char × List Char) × List Char)
    (h : matchScores l = some pr) :
    (!pr.1.1.isEmpty && pr.1.1.all Char.isDigit) = true ∧
    (!pr.1.2.isEmpty && pr.1.2.all Char.isDigit) = true := by
  unfold matchScores at h
  simp only at h
  split at h
  · exact absurd h (by simp)
  · rename_i hne1
    split at h
    · split at h
      · exact absurd h (by simp)
      · rename_i l3 heq hne2
        cases h
        refine ⟨?_, ?_⟩ <;> simp_all [List.all_takeWhile]
    · exact absurd h (by simp)

theorem findallAux_captures (fuel : Nat) : ∀ (l : List Char)
    (sp : List Char × List Char), sp ∈ findallAux fuel l →
    (!sp.1.isEmpty && sp.1.all Char.isDigit) = true ∧
    (!sp.2.isEmpty && sp.2.all Char.isDigit) = true := by
  induction fuel with
  | zero => intro l sp h; simp [findallAux] at h
  | succ f ih =>
    intro l sp h
    match l with
    | [] => simp [findallAux] at h
    | c :: cs =>
      rw [findallAux] at h
      split at h
      · split at h
        · rename_i pr hm
          rcases List.mem_cons.mp h with h | h
          · subst h; exact matchScores_captures _ _ hm
          · exact ih _ _ h
        · exact ih _ _ h
      · exact ih _ _ h

theorem pyInt_of_capture (l : List Char) (h : (!l.isEmpty && l.all Char.isDigit) = true) :
    pyInt l = some (digitsVal l) := by
  unfold pyInt
  rw [h]
  rfl

theorem filterMap_eq_map_of_some {α β : Type} (f : α → Option β) (g : α → β) :
    ∀ (l : List α), (∀ a ∈ l, f a = some (g a)) → l.filterMap f = l.map g
  | [], _ => rfl
  | a :: as, h => by
    rw [List.filterMap_cons, h a (List.mem_cons_self a as), List.map_cons,
      filterMap_eq_map_of_some f g as (fun x hx => h x (List.mem_cons_of_mem _ hx))]

theorem parsedPair_of_captures (sp : List Char × List Char)
    (h1 : (!sp.1.isEmpty && sp.1.all Char.isDigit) = true)
    (h2 : (!sp.2.isEmpty && sp.2.all Char.isDigit) = true) :
    parsedPair sp = some (digitsVal sp.1, digitsVal sp.2) := by
  unfold parsedPair
  rw [pyInt_of_capture _ h1, pyInt_of_capture _ h2]

/-- Every `findall` capture pair parses, so no occurrence is dropped. -/
theorem pairValues_eq_map (c : List Char) :
    pairValues c = (findall c).map (fun sp => (digitsVal sp.1, digitsVal sp.2)) := by
  unfold pairValues
  refine filterMap_eq_map_of_some _ _ _ (fun sp hsp => ?_)
  obtain ⟨h1, h2⟩ := findallAux_captures _ _ _ hsp
  exact parsedPair_of_captures sp h1 h2

theorem digitsVal_foldl_nonneg (l : List Char) : ∀ a : Int,
    0 ≤ a → 0 ≤ l.foldl (fun a c => a * 10 + digitVal c) a := by
  induction l with
  | nil => intro a ha; simpa using ha
  | cons c cs ih =>
    intro a ha
    rw [List.foldl_cons]
    refine ih _ ?_
    have hd : 0 ≤ digitVal c := Int.ofNat_nonneg _
    nlinarith

theorem digitsVal_nonneg (l : List Char) : 0 ≤ digitsVal l :=
  digitsVal_foldl_nonneg l 0 le_rfl

theorem pyInt_some_eq (l : List Char) (x : Int) (h : pyInt l = some x) :
    x = digitsVal l := by
  unfold pyInt at h
  split at h
  · exact (Option.some_inj.mp h).symm
  · exact absurd h (by simp)

theorem parsedPair_nonneg (sp : List Char × List Char) (op : Int × Int)
    (h : parsedPair sp = some op) : 0 ≤ op.1 ∧ 0 ≤ op.2 := by
  unfold parsedPair at h
  rcases h1 : pyInt sp.1 with _ | o <;> rcases h2 : pyInt sp.2 with _ | p <;>
    rw [h1, h2] at h <;> simp at h
  have ho := pyInt_some_eq _ _ h1
  have hp := pyInt_some_eq _ _ h2
  rw [← h]
  exact ⟨by simpa [ho] using digitsVal_nonneg sp.1,
         by simpa [hp] using digitsVal_nonneg sp.2⟩

theorem mem_flatten_pairValues_nonneg (comments : List (List Char)) (op : Int × Int)
    (h : op ∈ (comments.map pairValues).flatten) : 0 ≤ op.1 ∧ 0 ≤ op.2 := by
  obtain ⟨pv, hpv, hop⟩ := List.mem_flatten.mp h
  obtain ⟨c, _, rfl⟩ := List.mem_map.mp hpv
  obtain ⟨sp, _, hsp⟩ := List.mem_filterMap.mp hop
  exact parsedPair_nonneg sp op hsp

theorem score_totals_nonneg (comments : List (List Char)) :
    0 ≤ (compute_score_totals comments).1 ∧ 0 ≤ (compute_score_totals comments).2 := by
  rw [score_totals_eq_sums]
  constructor
  · refine List.sum_nonneg (fun x hx => ?_)
    obtain ⟨op, hop, rfl⟩ := List.mem_map.mp hx
    exact (mem_flatten_pairValues_nonneg comments op hop).1
  · refine List.sum_nonneg (fun x hx => ?_)
    obtain ⟨op, hop, rfl⟩ := List.mem_map.mp hx
    exact (mem_flatten_pairValues_nonneg comments op hop).2

theorem isPrefixOf_exists {α : Type} [BEq α] [LawfulBEq α] :
    ∀ (l1 l2 : List α), l1.isPrefixOf l2 = true → ∃ t, l2 = l1 ++ t
  | [], l2, _ => ⟨l2, rfl⟩
  | a :: as, [], h => by simp [List.isPrefixOf] at h
  | a :: as, b :: bs, h => by
    rw [List.isPrefixOf, Bool.and_eq_true, beq_iff_eq] at h
    obtain ⟨rfl, h2⟩ := h
    obtain ⟨t, rfl⟩ := isPrefixOf_exists as bs h2
    exact ⟨t, rfl⟩

theorem dropToMarker_some : ∀ (l s : List Char), dropToMarker l = some s →
    ∃ t, s = GRADING_MARKER ++ t
  | [], s, h => by simp [dropToMarker] at h
  | c :: cs, s, h => by
    rw [dropToMarker] at h
    split at h
    · rename_i hp
      cases h
      obtain ⟨t, ht⟩ := isPrefixOf_exists _ _ hp
      exact ⟨t, ht⟩
    · exact dropToMarker_some cs s h

theorem trimChars_marker (t : List Char) :
    ∃ u, trimChars (GRADING_MARKER ++ t) = GRADING_MARKER ++ u := by
  unfold trimChars
  have hfront : (GRADING_MARKER ++ t).dropWhile pyIsSpace = GRADING_MARKER ++ t := by
    have hm : GRADING_MARKER ++ t = '#' :: ("## Grading:".data ++ t) := rfl
    rw [hm, List.dropWhile_cons]
    simp [pyIsSpace]
  rw [hfront, List.reverse_append, List.dropWhile_append]
  have hback : GRADING_MARKER.reverse.dropWhile pyIsSpace = GRADING_MARKER.reverse := by
    decide
  split
  · exact ⟨[], by rw [hback, List.reverse_reverse, List.append_nil]⟩
  · exact ⟨(t.reverse.dropWhile pyIsSpace).reverse,
      by rw [List.reverse_append, List.reverse_reverse]⟩

theorem extractLine_some (line s : List Char) (h : extractLine line = some s) :
    s ≠ [] ∧ ∃ t, s = GRADING_MARKER ++ t := by
  unfold extractLine at h
  simp only at h
  split at h
  · exact absurd h (by simp)
  · split at h
    · rename_i s' hdm
      cases h
      obtain ⟨t, ht⟩ := dropToMarker_some _ _ hdm
      subst ht
      obtain ⟨u, hu⟩ := trimChars_marker t
      rw [hu]
      exact ⟨by simp [GRADING_MARKER], u, rfl⟩
    · exact absurd h (by simp)

/-- C2: for every sequence of strings, `compute_score_totals` returns the
pair obtained by summing, independently in each component, the integer
values of every occurrence of the pattern (marker token, optional
whitespace, digits, optional whitespace, `/`, optional whitespace, digits)
found anywhere within each string, across all strings; every occurrence in
a string containing several is counted (no capture is ever dropped by the
integer parse), and the empty sequence yields (0, 0). -/
theorem C2_compute_score_totals_sums (comments : List (List Char)) :
    compute_score_totals comments =
      ((((comments.map pairValues).flatten).map Prod.fst).sum,
       (((comments.map pairValues).flatten).map Prod.snd).sum) ∧
    (∀ c : List Char, pairValues c =
      (findall c).map (fun sp => (digitsVal sp.1, digitsVal sp.2))) ∧
    compute_score_totals [] = (0, 0) :=
  ⟨score_totals_eq_sums comments, fun c => pairValues_eq_map c, rfl⟩

/-- C3 (code bug): the claim — `extract_grading_comments_from_file` never
raises to the caller and returns an empty sequence whenever the file does
not exist or cannot be read — fails on the code.  At the failing inputs: a
file with undecodable bytes raises `UnicodeDecodeError` to the caller (a
`ValueError`, caught by neither `except` handler), and a mid-read `OSError`
after a marker line was already yielded returns the partially accumulated
non-empty list; only a missing file or an `OSError` at `open` itself
behaves as the claim says. -/
theorem C3_error_paths_diverge :
    extract_grading_comments_run
        (FileAccess.reads ["### Grading: 1/2".data] ReadEnding.decodeError) =
      Except.error PyError.unicodeDecodeError ∧
    extract_grading_comments_run
        (FileAccess.reads ["### Grading: 1/2".data] ReadEnding.osError) =
      Except.ok ["### Grading: 1/2".data] ∧
    (Except.ok (["### Grading: 1/2".data] : List (List Char)) :
        Except PyError (List (List Char))) ≠ Except.ok [] ∧
    extract_grading_comments_run FileAccess.notFound = Except.ok [] ∧
    extract_grading_comments_run (FileAccess.reads [] ReadEnding.osError) =
      Except.ok [] :=
  ⟨rfl, by decide, by decide, rfl, rfl⟩

/-- C8: the computed totals are never negative; a file with zero marker
lines contributes (0, 0) to the totals; and a pair with an unparsable
numeric token is skipped, leaving the running totals (hence the other
pairs' contributions) unchanged. -/
theorem C8_score_invariants (comments : List (List Char)) (r : FileReadResult)
    (acc : Int × Int) (sp : List Char × List Char)
    (hr : extract_grading_comments_from_file r = [])
    (hsp : pyInt sp.1 = none ∨ pyInt sp.2 = none) :
    0 ≤ (compute_score_totals comments).1 ∧
    0 ≤ (compute_score_totals comments).2 ∧
    compute_score_totals (extract_grading_comments_from_file r) = (0, 0) ∧
    addPair acc sp = acc := by
  refine ⟨(score_totals_nonneg comments).1, (score_totals_nonneg comments).2, ?_, ?_⟩
  · rw [hr]; rfl
  · unfold addPair
    rcases hsp with hsp | hsp <;> rw [hsp]
    rcases h1 : pyInt sp.1 with _ | o <;> rfl

theorem C8_witness :
    0 ≤ (compute_score_totals ["### Grading: 3/5".data]).1 ∧
    0 ≤ (compute_score_totals ["### Grading: 3/5".data]).2 ∧
    compute_score_totals (extract_grading_comments_from_file FileReadResult.ioError) = (0, 0) ∧
    addPair (4, 7) ([], ['5']) = (4, 7) :=
  C8_score_invariants ["### Grading: 3/5".data] FileReadResult.ioError (4, 7) ([], ['5'])
    rfl (Or.inl (by decide))

/-- C9: every string returned by `extract_grading_comments_from_file` is
non-empty and begins with the literal marker token `### Grading:`, and the
returned list preserves the order of the marker lines in the file
(extraction distributes over concatenation of the line sequence). -/
theorem C9_extract_marker_and_order (r : FileReadResult) :
    (∀ s ∈ extract_grading_comments_from_file r,
        s ≠ [] ∧ ∃ t, s = GRADING_MARKER ++ t) ∧
    (∀ l1 l2 : List (List Char),
        extract_grading_comments (l1 ++ l2) =
          extract_grading_comments l1 ++ extract_grading_comments l2) := by
  constructor
  · intro s hs
    match r with
    | .notFound => simp [extract_grading_comments_from_file] at hs
    | .ioError => simp [extract_grading_comments_from_file] at hs
    | .ok lines =>
      simp only [extract_grading_comments_from_file, extract_grading_comments] at hs
      obtain ⟨line, _, hline⟩ := List.mem_filterMap.mp hs
      exact extractLine_some line s hline
  · intro l1 l2
    unfold extract_grading_comments
    exact List.filterMap_append l1 l2 extractLine

theorem C9_witness :
    "### Grading: 3/5".data ≠ [] ∧
    ∃ t, "### Grading: 3/5".data = GRADING_MARKER ++ t :=
  (C9_extract_marker_and_order
      (FileReadResult.ok ["x".data, " ### Grading: 3/5 ".data])).1
    "### Grading: 3/5".data (by decide)

/-! ### Directory model and `compute_totals_in_directory` -/

/-- A filesystem path, as its list of components (`os.path.join` appends a
component; `os.path.dirname` drops the last one; names carry no separator). -/
abbrev FsPath := List String

/-- A plain file: its name and the outcome of opening and reading it. -/
abbrev PyFile := String × FileReadResult

/-- One `os.walk` triple, omitting the `dirnames` component that the
source's loop ignores (`for root, _dirs, files in walker`). -/
abbrev WalkEntry := FsPath × List PyFile

/-- Value stored in `per_file_results`: `(comments_list, (obtained, possible))`. -/
abbrev FileRecord := List (List Char) × (Int × Int)

/-- The `per_file_results` dict: keys in insertion order, unique. -/
abbrev PerFileTable := List (FsPath × FileRecord)

/-- A directory in the scanned tree: its name, whether `os.scandir` /
`os.listdir` can enumerate it, the plain files directly inside, and its
subdirectories. -/
inductive Dir where
  | mk (name : String) (listable : Bool) (files : List PyFile) (subdirs : List Dir)

def Dir.name : Dir → String
  | .mk n _ _ _ => n

def Dir.listable : Dir → Bool
  | .mk _ l _ _ => l

def Dir.files : Dir → List PyFile
  | .mk _ _ fs _ => fs

def Dir.subdirs : Dir → List Dir
  | .mk _ _ _ ds => ds

mutual
/-- `os.walk(top)`, top-down with the default `onerror=None`: a directory
that cannot be enumerated yields nothing, its whole subtree included. -/
def walkDir (p : FsPath) : Dir → List WalkEntry
  | .mk n l fs ds =>
    if l then (p ++ [n], fs) :: walkDirs (p ++ [n]) ds else []

def walkDirs (p : FsPath) : List Dir → List WalkEntry
  | [] => []
  | d :: ds => walkDir p d ++ walkDirs p ds
end

/-- `name.endswith('.py')` via the character lists (the `String` version
does not reduce in the kernel). -/
def endsWithPy (name : String) : Bool := ".py".data.isSuffixOf name.data

/-- Python dict assignment `d[k] = v`: overwrite the entry in place if the
key is present, else append. -/
def dictInsert (k : FsPath) (v : FileRecord) : PerFileTable → PerFileTable
  | [] => [(k, v)]
  | (k', v') :: rest =>
    if k' = k then (k, v) :: rest else (k', v') :: dictInsert k v rest

/-- Extraction and scoring of one file, as the loop body performs it.  (The
`except OSError` around the extraction call is unreachable: the callee
already catches its errors.) -/
def fileRecordOf (f : PyFile) : FileRecord :=
  let comments := extract_grading_comments_from_file f.2
  (comments, compute_score_totals comments)

/-- Body of `for name in files`: process a `.py` file, accumulate its
totals, and record it in `per_file_results` when requested. -/
def processFile (collect : Bool) (root : FsPath) (st : (Int × Int) × PerFileTable)
    (f : PyFile) : (Int × Int) × PerFileTable :=
  if endsWithPy f.1 then
    let fr := fileRecordOf f
    ((st.1.1 + fr.2.1, st.1.2 + fr.2.2),
     if collect then dictInsert (root ++ [f.1]) fr st.2 else st.2)
  else st

/-- Body of `for root, _dirs, files in walker`. -/
def processEntry (collect : Bool) (st : (Int × Int) × PerFileTable) (e : WalkEntry) :
    (Int × Int) × PerFileTable :=
  e.2.foldl (processFile collect e.1) st

/-- The whole accumulation loop of `compute_totals_in_directory`. -/
def processWalker (collect : Bool) (walker : List WalkEntry) :
    (Int × Int) × PerFileTable :=
  walker.foldl (processEntry collect) ((0, 0), [])

/-- The per-file loop body with the exception path made explicit: a
`UnicodeDecodeError` escaping `extract_grading_comments_from_file` is not an
`OSError`, so the loop's `except OSError` does not catch it either and it
aborts the loop. -/
def processFileRun (collect : Bool) (root : FsPath)
    (st : (Int × Int) × PerFileTable) (f : String × FileAccess) :
    Except PyError ((Int × Int) × PerFileTable) :=
  if endsWithPy f.1 then
    match extract_grading_comments_run f.2 with
    | Except.error e => Except.error e
    | Except.ok comments =>
      let op := compute_score_totals comments
      Except.ok ((st.1.1 + op.1, st.1.2 + op.2),
        if collect then dictInsert (root ++ [f.1]) (comments, op) st.2 else st.2)
  else Except.ok st

/-- `for name in files` with the exception path: the first undecodable file
aborts the rest of the loop — and, since nothing above catches the
exception, the whole `compute_totals_in_directory` call — discarding the
totals accumulated so far. -/
def processFilesRun (collect : Bool) (root : FsPath) :
    (Int × Int) × PerFileTable → List (String × FileAccess) →
      Except PyError ((Int × Int) × PerFileTable)
  | st, [] => Except.ok st
  | st, f :: fs =>
    match processFileRun collect root st f with
    | Except.error e => Except.error e
    | Except.ok st' => processFilesRun collect root st' fs

/-- Strict character-wise order on strings, modelling Python `<`. -/
def strLtChars : List Char → List Char → Bool
  | [], [] => false
  | [], _ :: _ => true
  | _ :: _, [] => false
  | a :: as, b :: bs =>
    if a.toNat < b.toNat then true
    else if b.toNat < a.toNat then false
    else strLtChars as bs

def strLt (a b : String) : Bool := strLtChars a.data b.data

/-- Component-wise lexicographic order on paths, modelling `sorted()` on the
joined path strings (names contain no separator; only permutation facts
about the sort are used below). -/
def pathLt : FsPath → FsPath → Bool
  | [], [] => false
  | [], _ :: _ => true
  | _ :: _, [] => false
  | a :: as, b :: bs =>
    if strLt a b then true
    else if strLt b a then false
    else pathLt as bs

def insertPath (x : FsPath) : List FsPath → List FsPath
  | [] => [x]
  | y :: ys => if pathLt x y then x :: y :: ys else y :: insertPath x ys

/-- `sorted(...)` over a list of paths (a stable insertion sort). -/
def sortPaths : List FsPath → List FsPath
  | [] => []
  | x :: xs => insertPath x (sortPaths xs)

/-- One written report file, as structured data: the directory it is
written into, one section per file (basename, comments, file totals), and
the grand total accumulated over those sections. -/
structure Report where
  dir : FsPath
  sections : List (String × FileRecord)
  grand : Int × Int
deriving DecidableEq

/-- `files_in_dir`: the sorted `per_file_results` keys belonging to
directory `d`, with their records. -/
def reportFilesIn (table : PerFileTable) (d : FsPath) : List (FsPath × FileRecord) :=
  ((sortPaths (table.map Prod.fst)).filter (fun p => p.dropLast == d)).filterMap
    (fun p => (table.lookup p).map (fun fr => (p, fr)))

/-- The report written for directory `d` (writing itself is modelled as
returning the structured content). -/
def buildReport (table : PerFileTable) (d : FsPath) : Report :=
  let files := reportFilesIn table d
  { dir := d
    sections := files.map (fun pr => (pr.1.getLastD "", pr.2))
    grand := files.foldl (fun acc pr => (acc.1 + pr.2.2.1, acc.2 + pr.2.2.2)) (0, 0) }

/-- The function's return value: `return 0, 0` and
`return total_obtained, total_possible` give a 2-tuple, and
`return total_obtained, total_possible, per_file_results` a 3-tuple. -/
inductive TotalsResult where
  | pair (obtained possible : Int)
  | triple (obtained possible : Int) (per_file : PerFileTable)
deriving DecidableEq

def TotalsResult.totals : TotalsResult → Int × Int
  | .pair o p => (o, p)
  | .triple o p _ => (o, p)

/-- `compute_totals_in_directory(directory_path, recursive, report_per_file,
write_report)`: build the walker (recursive walk, or single listing that
fails soft with `return 0, 0`), run the accumulation loop, then write one
report per selected directory.  The written reports are returned as values
(output-sink view); a failing single listing returns before any report is
written. -/
def compute_totals_in_directory (root : Dir)
    (recursive report_per_file write_report : Bool) :
    TotalsResult × List Report :=
  match (if recursive then some (walkDir [] root)
         else if root.listable then some [([root.name], root.files)] else none) with
  | none => (TotalsResult.pair 0 0, [])
  | some walker =>
    let collect := report_per_file || write_report
    let st := processWalker collect walker
    let reports :=
      if write_report then
        (if recursive then sortPaths ((st.2.map (fun kv => kv.1.dropLast)).dedup)
         else [[root.name]]).map (buildReport st.2)
      else []
    (if report_per_file then TotalsResult.triple st.1.1 st.1.2 st.2
     else TotalsResult.pair st.1.1 st.1.2, reports)

/-! ### Characterisation of the accumulation loop -/

/-- The processed files of one walk entry: each `.py` file, keyed by its
joined path, with its extraction/scoring record. -/
def procE (root : FsPath) (fs : List PyFile) : List (FsPath × FileRecord) :=
  (fs.filter (fun f => endsWithPy f.1)).map (fun f => (root ++ [f.1], fileRecordOf f))

/-- All processed files of a walk, in processing order. -/
def processedOf (walker : List WalkEntry) : List (FsPath × FileRecord) :=
  (walker.map (fun e => procE e.1 e.2)).flatten

/-- Componentwise sum of the totals of a list of file records. -/
def sumRec (l : List (FsPath × FileRecord)) : Int × Int :=
  ((l.map (fun kv => kv.2.2.1)).sum, (l.map (fun kv => kv.2.2.2)).sum)

/-- Folding `d[k] = v` assignments over a list of entries. -/
def tableFold (t : PerFileTable) (l : List (FsPath × FileRecord)) : PerFileTable :=
  l.foldl (fun t kv => dictInsert kv.1 kv.2 t) t

theorem foldl_processFile (collect : Bool) (root : FsPath) (fs : List PyFile) :
    ∀ st : (Int × Int) × PerFileTable,
    fs.foldl (processFile collect root) st =
      ((st.1.1 + (sumRec (procE root fs)).1, st.1.2 + (sumRec (procE root fs)).2),
       if collect then tableFold st.2 (procE root fs) else st.2) := by
  induction fs with
  | nil =>
    intro st
    simp [procE, sumRec, tableFold]
  | cons f fs ih =>
    intro st
    rw [List.foldl_cons, ih]
    unfold processFile
    rcases hpy : endsWithPy f.1 with _ | _
    · simp only [hpy, Bool.false_eq_true, if_false]
      have hp : procE root (f :: fs) = procE root fs := by
        simp [procE, List.filter_cons, hpy]
      rw [hp]
    · simp only [hpy, if_true]
      have hp : procE root (f :: fs) = (root ++ [f.1], fileRecordOf f) :: procE root fs := by
        simp [procE, List.filter_cons, hpy]
      rw [hp]
      rcases collect with _ | _ <;>
        simp [sumRec, tableFold] <;>
        constructor <;> ring

theorem foldl_processEntry (collect : Bool) (walker : List WalkEntry) :
    ∀ st : (Int × Int) × PerFileTable,
    walker.foldl (processEntry collect) st =
      ((st.1.1 + (sumRec (processedOf walker)).1,
        st.1.2 + (sumRec (processedOf walker)).2),
       if collect then tableFold st.2 (processedOf walker) else st.2) := by
  induction walker with
  | nil =>
    intro st
    simp [processedOf, sumRec, tableFold]
  | cons e walker ih =>
    intro st
    rw [List.foldl_cons, ih]
    have he : processEntry collect st e =
        ((st.1.1 + (sumRec (procE e.1 e.2)).1, st.1.2 + (sumRec (procE e.1 e.2)).2),
         if collect then tableFold st.2 (procE e.1 e.2) else st.2) := by
      unfold processEntry
      rw [foldl_processFile]
    rw [he]
    have hp : processedOf (e :: walker) = procE e.1 e.2 ++ processedOf walker := by
      simp [processedOf]
    rw [hp]
    rcases collect with _ | _ <;>
      simp [sumRec, tableFold, List.foldl_append] <;>
      constructor <;> ring

/-- The loop computes the sum of the processed files' totals, and (when
collecting) the dict of their records. -/
theorem processWalker_eq (collect : Bool) (walker : List WalkEntry) :
    processWalker collect walker =
      (sumRec (processedOf walker),
       if collect then tableFold [] (processedOf walker) else []) := by
  unfold processWalker
  rw [foldl_processEntry]
  simp

theorem dictInsert_fresh (k : FsPath) (v : FileRecord) :
    ∀ t : PerFileTable, k ∉ t.map Prod.fst → dictInsert k v t = t ++ [(k, v)] := by
  intro t
  induction t with
  | nil => intro _; rfl
  | cons kv rest ih =>
    intro hk
    rw [dictInsert]
    simp only [List.map_cons, List.mem_cons] at hk
    push_neg at hk
    rw [if_neg (fun h => hk.1 h.symm), ih hk.2]
    rfl

theorem tableFold_fresh (l : List (FsPath × FileRecord)) :
    ∀ t : PerFileTable, (l.map Prod.fst).Nodup →
    (∀ k ∈ l.map Prod.fst, k ∉ t.map Prod.fst) →
    tableFold t l = t ++ l := by
  induction l with
  | nil => intro t _ _; simp [tableFold]
  | cons kv rest ih =>
    intro t hnd hdisj
    rw [List.map_cons, List.nodup_cons] at hnd
    have h1 : kv.1 ∉ t.map Prod.fst := hdisj kv.1 (by simp)
    have hstep : tableFold t (kv :: rest) = tableFold (t ++ [(kv.1, kv.2)]) rest := by
      unfold tableFold
      rw [List.foldl_cons, dictInsert_fresh kv.1 kv.2 t h1]
    rw [hstep, ih (t ++ [(kv.1, kv.2)]) hnd.2 ?_]
    · simp
    · intro k hk
      rw [List.map_append, List.mem_append]
      push_neg
      refine ⟨hdisj k (by simp [hk]), ?_⟩
      simp only [List.map_cons, List.map_nil, List.mem_singleton]
      intro hkk
      exact hnd.1 (hkk ▸ hk)

/-- With pairwise-distinct file paths the dict is exactly the processed
list. -/
theorem tableFold_nil_eq (l : List (FsPath × FileRecord))
    (h : (l.map Prod.fst).Nodup) : tableFold [] l = l := by
  rw [tableFold_fresh l [] h (by simp)]
  rfl

theorem walkDir_unlistable (p : FsPath) (d : Dir) (h : d.listable = false) :
    walkDir p d = [] := by
  match d with
  | .mk n l fs ds =>
    rw [walkDir]
    simp only [Dir.listable] at h
    rw [h]
    simp

theorem walkDirs_append (p : FsPath) (a b : List Dir) :
    walkDirs p (a ++ b) = walkDirs p a ++ walkDirs p b := by
  induction a with
  | nil => simp [walkDirs]
  | cons d ds ih => rw [List.cons_append, walkDirs, walkDirs, ih, List.append_assoc]

/-- C10: if `report_per_file=True` and the non-recursive listing of the root
fails, `compute_totals_in_directory` returns the bare 2-tuple (0, 0) without
the per-file table, while every successful `report_per_file=True` invocation
(recursive, or with a listable root) returns a 3-tuple carrying the table. -/
theorem C10_tuple_shapes (root1 root2 : Dir) (wr1 wr2 recursive2 : Bool)
    (h1 : root1.listable = false)
    (h2 : recursive2 = true ∨ root2.listable = true) :
    compute_totals_in_directory root1 false true wr1 = (TotalsResult.pair 0 0, []) ∧
    ∃ o p tab, (compute_totals_in_directory root2 recursive2 true wr2).1 =
      TotalsResult.triple o p tab := by
  constructor
  · unfold compute_totals_in_directory
    rw [h1]
    simp
  · unfold compute_totals_in_directory
    rcases recursive2 with _ | _
    · rcases h2 with h2 | h2
      · exact absurd h2 (by simp)
      · rw [h2]
        simp
    · simp

theorem C10_witness :
    compute_totals_in_directory (Dir.mk "r" false [] []) false true true =
      (TotalsResult.pair 0 0, []) ∧
    ∃ o p tab,
      (compute_totals_in_directory (Dir.mk "d" true [] []) true true false).1 =
        TotalsResult.triple o p tab :=
  C10_tuple_shapes (Dir.mk "r" false [] []) (Dir.mk "d" true [] []) true false true
    rfl (Or.inl rfl)

/-- C6 (code bug): the first half of the claim holds — a top-level root that
cannot be enumerated yields an overall (0, 0) result without raising, shown
here in both modes — but "every other failure is isolated to the single
file or directory that caused it and does not abort the run" fails on the
code.  At the failing input, one `.py` file with undecodable bytes raises
`UnicodeDecodeError` through the loop's `except OSError`, aborting the
whole call and discarding every total gathered so far, while the same scan
without that file returns (4, 6). -/
theorem C6_decode_error_aborts :
    (compute_totals_in_directory (Dir.mk "r" false [] []) true true true).1.totals
      = (0, 0) ∧
    (compute_totals_in_directory (Dir.mk "r" false [] []) false false false).1.totals
      = (0, 0) ∧
    processFilesRun false ["d"] ((0, 0), [])
        [("a.py", FileAccess.reads ["### Grading: 1/2".data] ReadEnding.eof),
         ("bad.py", FileAccess.reads [] ReadEnding.decodeError),
         ("c.py", FileAccess.reads ["### Grading: 3/4".data] ReadEnding.eof)]
      = Except.error PyError.unicodeDecodeError ∧
    processFilesRun false ["d"] ((0, 0), [])
        [("a.py", FileAccess.reads ["### Grading: 1/2".data] ReadEnding.eof),
         ("c.py", FileAccess.reads ["### Grading: 3/4".data] ReadEnding.eof)]
      = Except.ok ((4, 6), []) :=
  ⟨by decide, by decide, rfl, rfl⟩

/-- The paths of the files the invocation's walker processes (key set of
`per_file_results`); on a real filesystem these are pairwise distinct. -/
def walkFilePaths (root : Dir) (recursive : Bool) : List FsPath :=
  (processedOf (if recursive then walkDir [] root
                else if root.listable then [([root.name], root.files)] else [])).map
    Prod.fst

/-- C7: when the per-file result table is requested, the total obtained and
total possible returned by `compute_totals_in_directory` equal the
componentwise sums of the per-file totals recorded in the returned table
(given the filesystem guarantee that file paths are pairwise distinct). -/
theorem C7_totals_match_table (root : Dir) (recursive write_report : Bool)
    (o p : Int) (tab : PerFileTable)
    (hkeys : (walkFilePaths root recursive).Nodup)
    (hres : (compute_totals_in_directory root recursive true write_report).1 =
      TotalsResult.triple o p tab) :
    o = (tab.map (fun kv => kv.2.2.1)).sum ∧
    p = (tab.map (fun kv => kv.2.2.2)).sum := by
  unfold compute_totals_in_directory at hres
  unfold walkFilePaths at hkeys
  rcases recursive with _ | _
  · rcases hl : root.listable with _ | _
    · rw [hl] at hres
      simp at hres
    · rw [hl] at hres hkeys
      simp only [Bool.false_eq_true, if_false, if_true, Bool.true_or] at hres hkeys
      rw [processWalker_eq] at hres
      simp only [if_true] at hres
      rw [tableFold_nil_eq _ hkeys] at hres
      rw [TotalsResult.triple.injEq] at hres
      obtain ⟨ho, hp, htab⟩ := hres
      subst ho hp htab
      exact ⟨rfl, rfl⟩
  · simp only [if_true, Bool.true_or] at hres hkeys
    rw [processWalker_eq] at hres
    simp only [if_true] at hres
    rw [tableFold_nil_eq _ hkeys] at hres
    rw [TotalsResult.triple.injEq] at hres
    obtain ⟨ho, hp, htab⟩ := hres
    subst ho hp htab
    exact ⟨rfl, rfl⟩

/-- Sample flat scanned directory (two graded `.py` files) used by the
concrete witnesses below. -/
def sampleFlat : Dir := Dir.mk "d" true
  [("a.py", FileReadResult.ok
      ["# starter".data, "### Grading: 4/5".data, "### Grading: 1/1".data]),
   ("b.py", FileReadResult.ok ["# another".data, "### Grading: 2/2".data])] []

theorem C7_witness :
    (7 : Int) = ([(["d", "a.py"],
        (["### Grading: 4/5".data, "### Grading: 1/1".data], ((5 : Int), (6 : Int)))),
      (["d", "b.py"], (["### Grading: 2/2".data], ((2 : Int), (2 : Int))))].map
        (fun kv => kv.2.2.1)).sum ∧
    (8 : Int) = ([(["d", "a.py"],
        (["### Grading: 4/5".data, "### Grading: 1/1".data], ((5 : Int), (6 : Int)))),
      (["d", "b.py"], (["### Grading: 2/2".data], ((2 : Int), (2 : Int))))].map
        (fun kv => kv.2.2.2)).sum :=
  C7_totals_match_table sampleFlat false true 7 8
    [(["d", "a.py"],
        (["### Grading: 4/5".data, "### Grading: 1/1".data], ((5 : Int), (6 : Int)))),
     (["d", "b.py"], (["### Grading: 2/2".data], ((2 : Int), (2 : Int))))]
    (by decide) (by decide)

theorem insertPath_perm (x : FsPath) (l : List FsPath) :
    (insertPath x l).Perm (x :: l) := by
  induction l with
  | nil => exact List.Perm.refl _
  | cons y ys ih =>
    rw [insertPath]
    split
    · exact List.Perm.refl _
    · exact (ih.cons y).trans (List.Perm.swap x y ys)

theorem sortPaths_perm (l : List FsPath) : (sortPaths l).Perm l := by
  induction l with
  | nil => exact List.Perm.refl _
  | cons x xs ih => exact (insertPath_perm x (sortPaths xs)).trans (ih.cons x)

theorem mem_sortPaths (x : FsPath) (l : List FsPath) :
    x ∈ sortPaths l ↔ x ∈ l :=
  (sortPaths_perm l).mem_iff

theorem buildReport_dir (table : PerFileTable) (d : FsPath) :
    (buildReport table d).dir = d := rfl

/-- C4 (amended): with report writing enabled, in recursive mode a report is
written into a directory iff that directory had at least one processed file
(an entry in `per_file_results`); in non-recursive mode exactly one report
is written, into the root, whenever the root listing succeeds — even if no
file was processed — and none when the listing fails. -/
theorem C4_report_destinations (root : Dir) (rpf : Bool) (d : FsPath) :
    ((∃ r ∈ (compute_totals_in_directory root true rpf true).2, r.dir = d) ↔
      (∃ kv ∈ (processWalker true (walkDir [] root)).2, kv.1.dropLast = d)) ∧
    (root.listable = true →
      (compute_totals_in_directory root false rpf true).2.map Report.dir
        = [[root.name]]) ∧
    (root.listable = false →
      (compute_totals_in_directory root false rpf true).2 = []) := by
  refine ⟨?_, ?_, ?_⟩
  · unfold compute_totals_in_directory
    simp only [if_true, Bool.or_true]
    constructor
    · rintro ⟨r, hr, hdir⟩
      obtain ⟨d', hd', hbr⟩ := List.mem_map.mp hr
      rw [← hbr] at hdir
      rw [buildReport_dir] at hdir
      subst hdir
      rw [mem_sortPaths] at hd'
      rw [List.mem_dedup] at hd'
      obtain ⟨kv, hkv, hk⟩ := List.mem_map.mp hd'
      rw [processWalker_eq]
      simp only [if_true]
      refine ⟨kv, ?_, hk⟩
      rw [processWalker_eq] at hkv
      simpa using hkv
    · rintro ⟨kv, hkv, hk⟩
      refine ⟨buildReport (processWalker true (walkDir [] root)).2 d, ?_, buildReport_dir _ _⟩
      refine List.mem_map.mpr ⟨d, ?_, rfl⟩
      rw [mem_sortPaths, List.mem_dedup]
      exact List.mem_map.mpr ⟨kv, hkv, hk⟩
  · intro hl
    unfold compute_totals_in_directory
    rw [hl]
    simp [buildReport_dir]
  · intro hl
    unfold compute_totals_in_directory
    rw [hl]
    simp

/-- C4 counterexample: a non-recursive scan (report writing enabled) of a
listable directory containing no `.py` file still writes a report into the
root — a report is written into a directory with zero processed files, so
"written iff at least one processed file" fails as stated. -/
theorem C4_counterexample :
    (compute_totals_in_directory
        (Dir.mk "d" true [("notes.txt", FileReadResult.ok [])] []) false false true).2 =
      [{ dir := ["d"], sections := [], grand := (0, 0) }] ∧
    (processWalker true [(["d"], [("notes.txt", FileReadResult.ok [])])]).2 = [] := by
  constructor
  · decide
  · decide

/-- Sample nested scanned tree (`top` 1/2, `top/sub` 2/3,
`top/sub/subsub` 3/4) used by concrete witnesses below. -/
def sampleNested : Dir := Dir.mk "top" true
  [("t.py", FileReadResult.ok ["### Grading: 1/2".data])]
  [Dir.mk "sub" true [("s.py", FileReadResult.ok ["### Grading: 2/3".data])]
    [Dir.mk "subsub" true [("ss.py", FileReadResult.ok ["### Grading: 3/4".data])] []]]

theorem C4_witness :
    ((∃ r ∈ (compute_totals_in_directory sampleNested true false true).2,
        r.dir = ["top", "sub"]) ↔
      (∃ kv ∈ (processWalker true (walkDir [] sampleNested)).2,
        kv.1.dropLast = ["top", "sub"])) ∧
    (sampleNested.listable = true →
      (compute_totals_in_directory sampleNested false false true).2.map Report.dir
        = [["top"]]) ∧
    (sampleNested.listable = false →
      (compute_totals_in_directory sampleNested false false true).2 = []) :=
  C4_report_destinations sampleNested false ["top", "sub"]

theorem grand_foldl_eq_sumRec (l : List (FsPath × FileRecord)) :
    ∀ acc : Int × Int,
    l.foldl (fun acc pr => (acc.1 + pr.2.2.1, acc.2 + pr.2.2.2)) acc =
      (acc.1 + (sumRec l).1, acc.2 + (sumRec l).2) := by
  induction l with
  | nil => intro acc; simp [sumRec]
  | cons kv rest ih =>
    intro acc
    rw [List.foldl_cons, ih]
    simp [sumRec]
    constructor <;> ring

theorem lookup_of_mem_nodup (tab : PerFileTable) :
    ∀ (kv : FsPath × FileRecord), (tab.map Prod.fst).Nodup → kv ∈ tab →
    tab.lookup kv.1 = some kv.2 := by
  induction tab with
  | nil => intro kv _ hm; simp at hm
  | cons hd rest ih =>
    intro kv hnd hm
    rw [List.map_cons, List.nodup_cons] at hnd
    rcases List.mem_cons.mp hm with h | h
    · subst h
      simp [List.lookup]
    · have hne : kv.1 ≠ hd.1 := by
        intro he
        exact hnd.1 (he ▸ List.mem_map.mpr ⟨kv, h, rfl⟩)
      have hbeq : (kv.1 == hd.1) = false := by
        simpa using hne
      rw [List.lookup, hbeq]
      exact ih kv hnd.2 h

theorem filterMap_lookup_eq (tab : PerFileTable)
    (hnd : (tab.map Prod.fst).Nodup) :
    ∀ l : PerFileTable, (∀ kv ∈ l, kv ∈ tab) →
    (l.map Prod.fst).filterMap
        (fun p => (tab.lookup p).map (fun fr => (p, fr))) = l := by
  intro l
  induction l with
  | nil => intro _; rfl
  | cons kv rest ih =>
    intro hsub
    rw [List.map_cons, List.filterMap_cons]
    rw [lookup_of_mem_nodup tab kv hnd (hsub kv (List.mem_cons_self kv rest))]
    simp [ih (fun x hx => hsub x (List.mem_cons_of_mem kv hx))]

/-- The processed-file list of the invocation's walker (equals the
`per_file_results` dict when file paths are pairwise distinct). -/
def scanTable (root : Dir) (recursive : Bool) : PerFileTable :=
  processedOf (if recursive then walkDir [] root
               else if root.listable then [([root.name], root.files)] else [])

theorem buildReport_grand (tab : PerFileTable) (d : FsPath)
    (hnd : (tab.map Prod.fst).Nodup) :
    (buildReport tab d).grand =
      (((tab.filter (fun kv => kv.1.dropLast == d)).map (fun kv => kv.2.2.1)).sum,
       ((tab.filter (fun kv => kv.1.dropLast == d)).map (fun kv => kv.2.2.2)).sum) := by
  unfold buildReport
  simp only
  rw [grand_foldl_eq_sumRec]
  simp only [zero_add]
  have hperm : (reportFilesIn tab d).Perm (tab.filter (fun kv => kv.1.dropLast == d)) := by
    unfold reportFilesIn
    have h1 : (sortPaths (tab.map Prod.fst)).Perm (tab.map Prod.fst) :=
      sortPaths_perm _
    have h2 : ((sortPaths (tab.map Prod.fst)).filter (fun p => p.dropLast == d)).Perm
        ((tab.map Prod.fst).filter (fun p => p.dropLast == d)) :=
      h1.filter _
    have h3 := h2.filterMap (fun p => (tab.lookup p).map (fun fr => (p, fr)))
    refine h3.trans ?_
    have h4 : (tab.map Prod.fst).filter (fun p => p.dropLast == d) =
        (tab.filter (fun kv => kv.1.dropLast == d)).map Prod.fst := by
      rw [List.filter_map]
      rfl
    rw [h4, filterMap_lookup_eq tab hnd _ (fun kv hkv => List.mem_of_mem_filter hkv)]
  unfold sumRec
  rw [(hperm.map (fun kv => kv.2.2.1)).sum_eq, (hperm.map (fun kv => kv.2.2.2)).sum_eq]

theorem walkFilePaths_eq_scanTable (root : Dir) (recursive : Bool) :
    walkFilePaths root recursive = (scanTable root recursive).map Prod.fst := rfl

/-- C5: the Grand total of each written report equals the componentwise sum
of the (obtained, possible) totals of only the files directly inside that
report's directory; files of subdirectories have a deeper dirname, fail the
filter, and contribute nothing (file paths assumed pairwise distinct, as on
a real filesystem). -/
theorem C5_grand_total_flat (root : Dir) (recursive rpf : Bool) (r : Report)
    (hkeys : (walkFilePaths root recursive).Nodup)
    (hr : r ∈ (compute_totals_in_directory root recursive rpf true).2) :
    r.grand =
      ((((scanTable root recursive).filter
          (fun kv => kv.1.dropLast == r.dir)).map (fun kv => kv.2.2.1)).sum,
       (((scanTable root recursive).filter
          (fun kv => kv.1.dropLast == r.dir)).map (fun kv => kv.2.2.2)).sum) := by
  rw [walkFilePaths_eq_scanTable] at hkeys
  unfold compute_totals_in_directory at hr
  rcases hrec : recursive with _ | _ <;> subst hrec
  · rcases hl : root.listable with _ | _ <;> rw [hl] at hr <;> simp only [Bool.false_eq_true, if_false] at hr
    · simp at hr
    · simp only [Bool.false_eq_true, if_false, if_true, Bool.or_true] at hr
      rw [processWalker_eq] at hr
      simp only [if_true] at hr
      have htab : tableFold [] (processedOf [([root.name], root.files)]) =
          scanTable root false := by
        rw [tableFold_nil_eq]
        · unfold scanTable
          rw [hl]
          simp
        · simpa [scanTable, hl] using hkeys
      rw [htab] at hr
      simp only [List.map_cons, List.map_nil, List.mem_singleton] at hr
      subst hr
      rw [buildReport_dir, buildReport_grand _ _ hkeys]
  · simp only [if_true, Bool.or_true] at hr
    rw [processWalker_eq] at hr
    simp only [if_true] at hr
    have htab : tableFold [] (processedOf (walkDir [] root)) =
        scanTable root true := by
      rw [tableFold_nil_eq]
      · rfl
      · simpa [scanTable] using hkeys
    rw [htab] at hr
    obtain ⟨d, _, hbr⟩ := List.mem_map.mp hr
    subst hbr
    rw [buildReport_dir, buildReport_grand _ _ hkeys]

/-- The report the non-recursive scan of `sampleFlat` writes. -/
def sampleReport : Report :=
  { dir := ["d"],
    sections := [("a.py", (["### Grading: 4/5".data, "### Grading: 1/1".data],
                   ((5 : Int), (6 : Int)))),
                 ("b.py", (["### Grading: 2/2".data], ((2 : Int), (2 : Int))))],
    grand := ((7 : Int), (8 : Int)) }

theorem C5_witness :
    sampleReport.grand =
      ((((scanTable sampleFlat false).filter
          (fun kv => kv.1.dropLast == sampleReport.dir)).map (fun kv => kv.2.2.1)).sum,
       (((scanTable sampleFlat false).filter
          (fun kv => kv.1.dropLast == sampleReport.dir)).map (fun kv => kv.2.2.2)).sum) :=
  C5_grand_total_flat sampleFlat false true sampleReport (by decide) (by decide)

/-! ### Summary writer (modelled from the spec) and roll-up totals -/

/-- Totals contributed by one file of a visited directory: a non-`.py` file
is not processed and contributes nothing. -/
def fileTotals (f : PyFile) : Int × Int :=
  if endsWithPy f.1 then (fileRecordOf f).2 else (0, 0)

/-- Flat totals of one directory's own files. -/
def dirOwnTotals (fs : List PyFile) : Int × Int :=
  ((fs.map (fun f => (fileTotals f).1)).sum, (fs.map (fun f => (fileTotals f).2)).sum)

mutual
/-- Roll-up totals (spec glossary): a visited directory's own files' totals
plus the roll-up totals of every visited subdirectory; an unenumerable
directory is not visited and contributes nothing. -/
def rollupTotals : Dir → Int × Int
  | .mk _ l fs ds =>
    if l then
      ((dirOwnTotals fs).1 + (rollupTotalsList ds).1,
       (dirOwnTotals fs).2 + (rollupTotalsList ds).2)
    else (0, 0)

def rollupTotalsList : List Dir → Int × Int
  | [] => (0, 0)
  | d :: ds =>
    ((rollupTotals d).1 + (rollupTotalsList ds).1,
     (rollupTotals d).2 + (rollupTotalsList ds).2)
end

mutual
/-- One (absolute path, roll-up totals) row per visited directory, in walk
order: the reference tree-recursive reading of the spec's summary rows. -/
def rollupRows (p : FsPath) : Dir → List (FsPath × (Int × Int))
  | .mk n l fs ds =>
    if l then
      (p ++ [n], rollupTotals (Dir.mk n l fs ds)) :: rollupRowsList (p ++ [n]) ds
    else []

def rollupRowsList (p : FsPath) : List Dir → List (FsPath × (Int × Int))
  | [] => []
  | d :: ds => rollupRows p d ++ rollupRowsList p ds
end

/-- Roll-up totals of the directory at path `q`, computed from the per-file
table: the componentwise sum over the entries whose dirname lies in `q`'s
subtree (i.e. has `q` as a component-wise prefix). -/
def rollupFromTable (table : PerFileTable) (q : FsPath) : Int × Int :=
  (((table.filter (fun kv => q.isPrefixOf kv.1.dropLast)).map (fun kv => kv.2.2.1)).sum,
   ((table.filter (fun kv => q.isPrefixOf kv.1.dropLast)).map (fun kv => kv.2.2.2)).sum)

/-- Label of a visited directory relative to the scan root: the root itself
is labelled by its own base name, any other directory by its path below the
root. -/
def relLabel (rootName : String) (q : FsPath) : FsPath :=
  if q = [rootName] then [rootName] else q.drop 1

/-- The summary CSV as structured data: its fixed header line and one
(label, totals) row per visited directory. -/
structure Summary where
  header : String
  rows : List (FsPath × (Int × Int))
deriving DecidableEq

/-- Modelled from the spec: the summary writer.  The module source under
`src/` lacks the `write_summary` / `SUMMARY_FILE_NAME` code its tests
exercise, so this follows spec section 4.5: in recursive mode, write at the
scan root one CSV with header `Directory,TotalObtained,TotalPossible` and
one row per visited directory, labelled relative to the root (the root by
its base name), each row's totals being the roll-up over that directory's
subtree, computed from the walker's per-file table. -/
def write_summary (root : Dir) : Summary :=
  let table := (processWalker true (walkDir [] root)).2
  { header := "Directory,TotalObtained,TotalPossible"
    rows := (walkDir [] root).map
      (fun e => (relLabel root.name e.1, rollupFromTable table e.1)) }

/-- Executable no-duplicates check on name lists. -/
def nodupB : List String → Bool
  | [] => true
  | x :: xs => !(xs.contains x) && nodupB xs

mutual
/-- Real-filesystem well-formedness: within each directory, file names are
pairwise distinct and subdirectory names are pairwise distinct. -/
def wfDir : Dir → Bool
  | .mk _ _ fs ds => nodupB (fs.map Prod.fst) && nodupB (ds.map Dir.name) && wfDirs ds

def wfDirs : List Dir → Bool
  | [] => true
  | d :: ds => wfDir d && wfDirs ds
end

theorem isPrefixOf_append_self {α : Type} [BEq α] [LawfulBEq α] :
    ∀ (a b : List α), a.isPrefixOf (a ++ b) = true
  | [], _ => by simp [List.isPrefixOf]
  | x :: xs, b => by
    rw [List.cons_append, List.isPrefixOf, Bool.and_eq_true, beq_iff_eq]
    exact ⟨rfl, isPrefixOf_append_self xs b⟩

theorem nodupB_iff : ∀ l : List String, nodupB l = true ↔ l.Nodup := by
  intro l
  induction l with
  | nil => simp [nodupB]
  | cons x xs ih =>
    rw [nodupB, Bool.and_eq_true, Bool.not_eq_true', List.nodup_cons, ← ih]
    have hc : xs.contains x = false ↔ x ∉ xs := by
      constructor
      · intro h hm
        have hmm : xs.contains x = true := List.elem_iff.mpr hm
        rw [h] at hmm
        exact absurd hmm (by simp)
      · intro h
        rcases hx : xs.contains x with _ | _
        · rfl
        · exact absurd (List.elem_iff.mp hx) h
    rw [hc]

theorem prefix_head_eq (p u v : FsPath) (a b : String)
    (h : (p ++ a :: u).isPrefixOf (p ++ b :: v) = true) : a = b := by
  obtain ⟨t, ht⟩ := isPrefixOf_exists _ _ h
  rw [List.append_assoc] at ht
  have h2 : b :: v = a :: (u ++ t) := by
    exact List.append_cancel_left ht
  exact (List.cons_eq_cons.mp h2).1.symm

theorem prefix_strict_longer_false (p : FsPath) (a : String) (u : FsPath) :
    (p ++ a :: u).isPrefixOf p = false := by
  rcases h : (p ++ a :: u).isPrefixOf p with _ | _
  · rfl
  · exfalso
    obtain ⟨t, ht⟩ := isPrefixOf_exists _ _ h
    have hl := congrArg List.length ht
    simp at hl

theorem processedOf_append (a b : List WalkEntry) :
    processedOf (a ++ b) = processedOf a ++ processedOf b := by
  simp [processedOf]

theorem sumRec_append (a b : List (FsPath × FileRecord)) :
    sumRec (a ++ b) = ((sumRec a).1 + (sumRec b).1, (sumRec a).2 + (sumRec b).2) := by
  simp [sumRec]

theorem mem_procE_dirname (root : FsPath) (fs : List PyFile)
    (kv : FsPath × FileRecord) (h : kv ∈ procE root fs) : kv.1.dropLast = root := by
  unfold procE at h
  obtain ⟨f, _, hf⟩ := List.mem_map.mp h
  rw [← hf]
  exact List.dropLast_concat

theorem mem_processedOf_dirname (walker : List WalkEntry)
    (kv : FsPath × FileRecord) (h : kv ∈ processedOf walker) :
    ∃ e ∈ walker, kv.1.dropLast = e.1 := by
  unfold processedOf at h
  obtain ⟨pe, hpe, hkv⟩ := List.mem_flatten.mp h
  obtain ⟨e, he, rfl⟩ := List.mem_map.mp hpe
  exact ⟨e, he, mem_procE_dirname e.1 e.2 kv hkv⟩

theorem isPrefixOf_self {α : Type} [BEq α] [LawfulBEq α] (a : List α) :
    a.isPrefixOf a = true := by
  have h := isPrefixOf_append_self a []
  rwa [List.append_nil] at h

mutual
theorem walkDir_path_shape (p : FsPath) (d : Dir) :
    ∀ e ∈ walkDir p d, ∃ suff, e.1 = p ++ d.name :: suff := by
  match d with
  | .mk n l fs ds =>
    intro e he
    rw [walkDir] at he
    split at he
    · rcases List.mem_cons.mp he with h | h
      · exact ⟨[], by rw [h]; simp [Dir.name]⟩
      · obtain ⟨d', _, m, hm⟩ := walkDirs_path_shape (p ++ [n]) ds e h
        exact ⟨d'.name :: m, by rw [hm]; simp [Dir.name]⟩
    · simp at he

theorem walkDirs_path_shape (p : FsPath) (ds : List Dir) :
    ∀ e ∈ walkDirs p ds, ∃ d' ∈ ds, ∃ suff, e.1 = p ++ d'.name :: suff := by
  match ds with
  | [] => intro e he; simp [walkDirs] at he
  | d :: rest =>
    intro e he
    rw [walkDirs] at he
    rcases List.mem_append.mp he with h | h
    · obtain ⟨suff, hs⟩ := walkDir_path_shape p d e h
      exact ⟨d, List.mem_cons_self _ _, suff, hs⟩
    · obtain ⟨d', hd', suff, hs⟩ := walkDirs_path_shape p rest e h
      exact ⟨d', List.mem_cons_of_mem _ hd', suff, hs⟩
end

theorem procE_sum_fst (q : FsPath) (fs : List PyFile) :
    ((procE q fs).map (fun kv => kv.2.2.1)).sum =
      (fs.map (fun f => (fileTotals f).1)).sum := by
  induction fs with
  | nil => rfl
  | cons f rest ih =>
    unfold procE at ih ⊢
    rw [List.filter_cons]
    rcases hf : endsWithPy f.1 with _ | _
    · simp only [Bool.false_eq_true, if_false]
      rw [List.map_cons, List.sum_cons, ih]
      have hz : (fileTotals f).1 = 0 := by simp [fileTotals, hf]
      rw [hz, zero_add]
    · simp only [if_true]
      rw [List.map_cons, List.map_cons, List.map_cons, List.sum_cons, List.sum_cons, ih]
      have hz : (fileTotals f).1 = (fileRecordOf f).2.1 := by simp [fileTotals, hf]
      rw [hz]

theorem procE_sum_snd (q : FsPath) (fs : List PyFile) :
    ((procE q fs).map (fun kv => kv.2.2.2)).sum =
      (fs.map (fun f => (fileTotals f).2)).sum := by
  induction fs with
  | nil => rfl
  | cons f rest ih =>
    unfold procE at ih ⊢
    rw [List.filter_cons]
    rcases hf : endsWithPy f.1 with _ | _
    · simp only [Bool.false_eq_true, if_false]
      rw [List.map_cons, List.sum_cons, ih]
      have hz : (fileTotals f).2 = 0 := by simp [fileTotals, hf]
      rw [hz, zero_add]
    · simp only [if_true]
      rw [List.map_cons, List.map_cons, List.map_cons, List.sum_cons, List.sum_cons, ih]
      have hz : (fileTotals f).2 = (fileRecordOf f).2.2 := by simp [fileTotals, hf]
      rw [hz]

theorem sumRec_procE (q : FsPath) (fs : List PyFile) :
    sumRec (procE q fs) = dirOwnTotals fs := by
  unfold sumRec dirOwnTotals
  rw [procE_sum_fst, procE_sum_snd]

mutual
theorem sumRec_walkDir (p : FsPath) (d : Dir) :
    sumRec (processedOf (walkDir p d)) = rollupTotals d := by
  match d with
  | .mk n l fs ds =>
    rw [walkDir, rollupTotals]
    rcases l with _ | _
    · simp [processedOf, sumRec]
    · simp only [if_true]
      have h1 : processedOf ((p ++ [n], fs) :: walkDirs (p ++ [n]) ds) =
          procE (p ++ [n]) fs ++ processedOf (walkDirs (p ++ [n]) ds) := by
        simp [processedOf, procE]
      rw [h1, sumRec_append, sumRec_procE, sumRec_walkDirs (p ++ [n]) ds]

theorem sumRec_walkDirs (p : FsPath) (ds : List Dir) :
    sumRec (processedOf (walkDirs p ds)) = rollupTotalsList ds := by
  match ds with
  | [] => simp [walkDirs, processedOf, sumRec, rollupTotalsList]
  | d :: rest =>
    rw [walkDirs, rollupTotalsList, processedOf_append, sumRec_append,
      sumRec_walkDir p d, sumRec_walkDirs p rest]
end

theorem rollupFromTable_all (T : PerFileTable) (q : FsPath)
    (h : ∀ kv ∈ T, q.isPrefixOf kv.1.dropLast = true) :
    rollupFromTable T q = sumRec T := by
  unfold rollupFromTable sumRec
  rw [List.filter_eq_self.mpr h]

theorem rollupFromTable_none (T : PerFileTable) (q : FsPath)
    (h : ∀ kv ∈ T, q.isPrefixOf kv.1.dropLast = false) :
    rollupFromTable T q = (0, 0) := by
  unfold rollupFromTable
  rw [List.filter_eq_nil_iff.mpr (fun kv hkv => by simp [h kv hkv])]
  rfl

theorem rollupFromTable_append (T1 T2 : PerFileTable) (q : FsPath) :
    rollupFromTable (T1 ++ T2) q =
      ((rollupFromTable T1 q).1 + (rollupFromTable T2 q).1,
       (rollupFromTable T1 q).2 + (rollupFromTable T2 q).2) := by
  unfold rollupFromTable
  rw [List.filter_append]
  simp

theorem rollupFromTable_append_left_none (T1 T2 : PerFileTable) (q : FsPath)
    (h : ∀ kv ∈ T1, q.isPrefixOf kv.1.dropLast = false) :
    rollupFromTable (T1 ++ T2) q = rollupFromTable T2 q := by
  rw [rollupFromTable_append, rollupFromTable_none T1 q h]
  simp

theorem rollupFromTable_append_right_none (T1 T2 : PerFileTable) (q : FsPath)
    (h : ∀ kv ∈ T2, q.isPrefixOf kv.1.dropLast = false) :
    rollupFromTable (T1 ++ T2) q = rollupFromTable T1 q := by
  rw [rollupFromTable_append, rollupFromTable_none T2 q h]
  simp

mutual
theorem rows_walkDir (p : FsPath) (d : Dir) (hwf : wfDir d = true) :
    (walkDir p d).map
        (fun e => (e.1, rollupFromTable (processedOf (walkDir p d)) e.1)) =
      rollupRows p d := by
  match d with
  | .mk n l fs ds =>
    rw [wfDir, Bool.and_eq_true, Bool.and_eq_true] at hwf
    obtain ⟨⟨_, hwfN⟩, hwfDs⟩ := hwf
    rw [walkDir, rollupRows]
    rcases l with _ | _
    · simp
    · simp only [if_true]
      have hT : processedOf ((p ++ [n], fs) :: walkDirs (p ++ [n]) ds) =
          procE (p ++ [n]) fs ++ processedOf (walkDirs (p ++ [n]) ds) := by
        simp [processedOf]
      rw [List.map_cons]
      congr 1
      · rw [hT]
        have hall : ∀ kv ∈ procE (p ++ [n]) fs ++ processedOf (walkDirs (p ++ [n]) ds),
            (p ++ [n]).isPrefixOf kv.1.dropLast = true := by
          intro kv hkv
          rcases List.mem_append.mp hkv with h | h
          · rw [mem_procE_dirname _ _ _ h]
            exact isPrefixOf_self _
          · obtain ⟨e', he', hdn⟩ := mem_processedOf_dirname _ _ h
            obtain ⟨d', _, suff, hs⟩ := walkDirs_path_shape (p ++ [n]) ds e' he'
            rw [hdn, hs]
            exact isPrefixOf_append_self _ _
        rw [rollupFromTable_all _ _ hall, sumRec_append, sumRec_procE,
          sumRec_walkDirs (p ++ [n]) ds, rollupTotals]
        simp
      · have hcong : ∀ e ∈ walkDirs (p ++ [n]) ds,
            rollupFromTable
                (processedOf ((p ++ [n], fs) :: walkDirs (p ++ [n]) ds)) e.1 =
              rollupFromTable (processedOf (walkDirs (p ++ [n]) ds)) e.1 := by
          intro e he
          rw [hT]
          obtain ⟨d', _, suff, hs⟩ := walkDirs_path_shape (p ++ [n]) ds e he
          refine rollupFromTable_append_left_none _ _ _ (fun kv hkv => ?_)
          rw [mem_procE_dirname _ _ _ hkv, hs]
          exact prefix_strict_longer_false _ _ _
        rw [List.map_congr_left (fun e he => by rw [hcong e he])]
        exact rows_walkDirs (p ++ [n]) ds hwfDs hwfN

theorem rows_walkDirs (p : FsPath) (ds : List Dir) (hwf : wfDirs ds = true)
    (hnames : nodupB (ds.map Dir.name) = true) :
    (walkDirs p ds).map
        (fun e => (e.1, rollupFromTable (processedOf (walkDirs p ds)) e.1)) =
      rollupRowsList p ds := by
  match ds with
  | [] => simp [walkDirs, rollupRowsList]
  | d :: rest =>
    rw [wfDirs, Bool.and_eq_true] at hwf
    obtain ⟨hwfD, hwfRest⟩ := hwf
    rw [List.map_cons, nodupB, Bool.and_eq_true, Bool.not_eq_true'] at hnames
    obtain ⟨hncont, hnRest⟩ := hnames
    rw [walkDirs, rollupRowsList, processedOf_append, List.map_append]
    congr 1
    · have hcong : ∀ e ∈ walkDir p d,
          rollupFromTable
              (processedOf (walkDir p d) ++ processedOf (walkDirs p rest)) e.1 =
            rollupFromTable (processedOf (walkDir p d)) e.1 := by
        intro e he
        obtain ⟨suff, hs⟩ := walkDir_path_shape p d e he
        refine rollupFromTable_append_right_none _ _ _ (fun kv hkv => ?_)
        obtain ⟨e', he', hdn⟩ := mem_processedOf_dirname _ _ hkv
        obtain ⟨d', hd', suff', hs'⟩ := walkDirs_path_shape p rest e' he'
        rw [hdn, hs', hs]
        rcases hb : (p ++ d.name :: suff).isPrefixOf (p ++ d'.name :: suff') with _ | _
        · rfl
        · exfalso
          have heq := prefix_head_eq _ _ _ _ _ hb
          have hmem : (rest.map Dir.name).contains d.name = true :=
            List.elem_iff.mpr (List.mem_map.mpr ⟨d', hd', heq.symm⟩)
          rw [hncont] at hmem
          exact absurd hmem (by simp)
      rw [List.map_congr_left (fun e he => by rw [hcong e he])]
      exact rows_walkDir p d hwfD
    · have hcong : ∀ e ∈ walkDirs p rest,
          rollupFromTable
              (processedOf (walkDir p d) ++ processedOf (walkDirs p rest)) e.1 =
            rollupFromTable (processedOf (walkDirs p rest)) e.1 := by
        intro e he
        obtain ⟨d', hd', suff, hs⟩ := walkDirs_path_shape p rest e he
        refine rollupFromTable_append_left_none _ _ _ (fun kv hkv => ?_)
        obtain ⟨e', he', hdn⟩ := mem_processedOf_dirname _ _ hkv
        obtain ⟨suff', hs'⟩ := walkDir_path_shape p d e' he'
        rw [hdn, hs', hs]
        rcases hb : (p ++ d'.name :: suff).isPrefixOf (p ++ d.name :: suff') with _ | _
        · rfl
        · exfalso
          have heq := prefix_head_eq _ _ _ _ _ hb
          have hmem : (rest.map Dir.name).contains d.name = true :=
            List.elem_iff.mpr (List.mem_map.mpr ⟨d', hd', heq⟩)
          rw [hncont] at hmem
          exact absurd hmem (by simp)
      rw [List.map_congr_left (fun e he => by rw [hcong e he])]
      exact rows_walkDirs p rest hwfRest hnRest
end

mutual
theorem walkDir_paths_nodup (p : FsPath) (d : Dir) (hwf : wfDir d = true) :
    ((walkDir p d).map (fun e => e.1)).Nodup := by
  match d with
  | .mk n l fs ds =>
    rw [wfDir, Bool.and_eq_true, Bool.and_eq_true] at hwf
    obtain ⟨⟨_, hwfN⟩, hwfDs⟩ := hwf
    rw [walkDir]
    rcases l with _ | _
    · simp
    · simp only [if_true, List.map_cons]
      rw [List.nodup_cons]
      constructor
      · intro hmem
        obtain ⟨e, he, hpe⟩ := List.mem_map.mp hmem
        obtain ⟨d', _, suff, hs⟩ := walkDirs_path_shape (p ++ [n]) ds e he
        rw [hs] at hpe
        have hlen := congrArg List.length hpe
        simp at hlen
      · exact walkDirs_paths_nodup (p ++ [n]) ds hwfDs hwfN

theorem walkDirs_paths_nodup (p : FsPath) (ds : List Dir) (hwf : wfDirs ds = true)
    (hnames : nodupB (ds.map Dir.name) = true) :
    ((walkDirs p ds).map (fun e => e.1)).Nodup := by
  match ds with
  | [] => simp [walkDirs]
  | d :: rest =>
    rw [wfDirs, Bool.and_eq_true] at hwf
    obtain ⟨hwfD, hwfRest⟩ := hwf
    rw [List.map_cons, nodupB, Bool.and_eq_true, Bool.not_eq_true'] at hnames
    obtain ⟨hncont, hnRest⟩ := hnames
    rw [walkDirs, List.map_append]
    refine List.Nodup.append (walkDir_paths_nodup p d hwfD)
      (walkDirs_paths_nodup p rest hwfRest hnRest) ?_
    intro q hq1 hq2
    obtain ⟨e1, he1, hp1⟩ := List.mem_map.mp hq1
    obtain ⟨e2, he2, hp2⟩ := List.mem_map.mp hq2
    obtain ⟨s1, hs1⟩ := walkDir_path_shape p d e1 he1
    obtain ⟨d', hd', s2, hs2⟩ := walkDirs_path_shape p rest e2 he2
    have heq : p ++ d.name :: s1 = p ++ d'.name :: s2 := by
      rw [← hs1, ← hs2, hp1, hp2]
    have hname : d.name = d'.name := (List.cons_eq_cons.mp (List.append_cancel_left heq)).1
    have hmem : (rest.map Dir.name).contains d.name = true :=
      List.elem_iff.mpr (List.mem_map.mpr ⟨d', hd', hname.symm⟩)
    rw [hncont] at hmem
    exact absurd hmem (by simp)
end

mutual
theorem walkDir_files_nodup (p : FsPath) (d : Dir) (hwf : wfDir d = true) :
    ∀ e ∈ walkDir p d, nodupB (e.2.map Prod.fst) = true := by
  match d with
  | .mk n l fs ds =>
    rw [wfDir, Bool.and_eq_true, Bool.and_eq_true] at hwf
    obtain ⟨⟨hwfF, _⟩, hwfDs⟩ := hwf
    intro e he
    rw [walkDir] at he
    split at he
    · rcases List.mem_cons.mp he with h | h
      · rw [h]
        exact hwfF
      · exact walkDirs_files_nodup (p ++ [n]) ds hwfDs e h
    · simp at he

theorem walkDirs_files_nodup (p : FsPath) (ds : List Dir) (hwf : wfDirs ds = true) :
    ∀ e ∈ walkDirs p ds, nodupB (e.2.map Prod.fst) = true := by
  match ds with
  | [] => intro e he; simp [walkDirs] at he
  | d :: rest =>
    rw [wfDirs, Bool.and_eq_true] at hwf
    intro e he
    rw [walkDirs] at he
    rcases List.mem_append.mp he with h | h
    · exact walkDir_files_nodup p d hwf.1 e h
    · exact walkDirs_files_nodup p rest hwf.2 e h
end

theorem procE_keys_nodup (q : FsPath) (fs : List PyFile)
    (h : nodupB (fs.map Prod.fst) = true) :
    ((procE q fs).map Prod.fst).Nodup := by
  unfold procE
  rw [List.map_map]
  have hinj := List.inj_on_of_nodup_map ((nodupB_iff _).mp h)
  have hfsnd : fs.Nodup := List.Nodup.of_map _ ((nodupB_iff _).mp h)
  refine List.Nodup.map_on ?_ (hfsnd.filter _)
  intro x hx y hy hxy
  simp only [Function.comp] at hxy
  have hname : x.1 = y.1 := (List.cons_eq_cons.mp (List.append_cancel_left hxy)).1
  exact hinj (List.mem_of_mem_filter hx) (List.mem_of_mem_filter hy) hname

theorem processedOf_keys_nodup (walker : List WalkEntry)
    (hpaths : (walker.map (fun e => e.1)).Nodup)
    (hfiles : ∀ e ∈ walker, nodupB (e.2.map Prod.fst) = true) :
    ((processedOf walker).map Prod.fst).Nodup := by
  induction walker with
  | nil => simp [processedOf]
  | cons e rest ih =>
    rw [List.map_cons, List.nodup_cons] at hpaths
    have h1 : processedOf (e :: rest) = procE e.1 e.2 ++ processedOf rest := by
      simp [processedOf]
    rw [h1, List.map_append]
    refine List.Nodup.append
      (procE_keys_nodup _ _ (hfiles e (List.mem_cons_self _ _)))
      (ih hpaths.2 (fun x hx => hfiles x (List.mem_cons_of_mem _ hx))) ?_
    intro k hk1 hk2
    obtain ⟨kv1, hkv1, rfl⟩ := List.mem_map.mp hk1
    have hd1 : kv1.1.dropLast = e.1 := mem_procE_dirname _ _ _ hkv1
    obtain ⟨kv2, hkv2, hkk⟩ := List.mem_map.mp hk2
    obtain ⟨e', he', hd2⟩ := mem_processedOf_dirname _ _ hkv2
    apply hpaths.1
    refine List.mem_map.mpr ⟨e', he', ?_⟩
    rw [← hd2, hkk, hd1]

/-- C1: in recursive mode with summary output requested, one CSV is written
at the scan root; its first line is the header
`Directory,TotalObtained,TotalPossible`, and it is followed by exactly one
row per visited directory — the rows are the relabelled `rollupRows`, one
per visited directory of the walk, whose paths are pairwise distinct — with
each row's totals equal to that directory's own files' totals plus the
roll-up totals of every direct and indirect subdirectory (`rollupTotals`);
on the sample tree top(1/2)/sub(2/3)/sub/subsub(3/4) the rows are
top=(6,9), sub=(5,7), sub/subsub=(3,4). -/
theorem C1_summary_rollup (root : Dir) (hwf : wfDir root = true) :
    (write_summary root).header = "Directory,TotalObtained,TotalPossible" ∧
    (write_summary root).rows =
      (rollupRows [] root).map (fun row => (relLabel root.name row.1, row.2)) ∧
    ((walkDir [] root).map (fun e => e.1)).Nodup ∧
    (write_summary sampleNested).rows =
      [(["top"], ((6 : Int), (9 : Int))), (["sub"], ((5 : Int), (7 : Int))),
       (["sub", "subsub"], ((3 : Int), (4 : Int)))] := by
  refine ⟨rfl, ?_, walkDir_paths_nodup [] root hwf, by decide⟩
  unfold write_summary
  simp only
  have htab : (processWalker true (walkDir [] root)).2 =
      processedOf (walkDir [] root) := by
    rw [processWalker_eq]
    simp only [if_true]
    exact tableFold_nil_eq _
      (processedOf_keys_nodup _ (walkDir_paths_nodup [] root hwf)
        (walkDir_files_nodup [] root hwf))
  rw [htab, ← rows_walkDir [] root hwf, List.map_map]
  exact List.map_congr_left (fun e _ => rfl)

theorem C1_witness :
    (write_summary sampleNested).header = "Directory,TotalObtained,TotalPossible" ∧
    (write_summary sampleNested).rows =
      (rollupRows [] sampleNested).map
        (fun row => (relLabel sampleNested.name row.1, row.2)) ∧
    ((walkDir [] sampleNested).map (fun e => e.1)).Nodup ∧
    (write_summary sampleNested).rows =
      [(["top"], ((6 : Int), (9 : Int))), (["sub"], ((5 : Int), (7 : Int))),
       (["sub", "subsub"], ((3 : Int), (4 : Int)))] :=
  C1_summary_rollup sampleNested (by decide)
